import Mathlib

/-!
Verification of the batch task scheduler of this repository
(`src/backend/rust/src/scheduler.rs`; the PyO3 wrapper in
`src/backend/rust/src/lib.rs` repeats the same logic behind a JSON boundary).

Modelling conventions:
* An `f64` value is modelled exactly as either a rational number or the
  incomparable `NaN`.  IEEE rounding and infinities play no role in the
  properties under study; `NaN` does (the `Ord for TaskPriority` instance
  falls back to `Ordering::Equal` on incomparable priorities), so it is kept.
* `std::collections::BinaryHeap` is external library code; it is modelled by
  its documented contract: `push` adds an element and `pop` removes and
  returns a greatest element with respect to the element type's `Ord`.
  Which of several `Ordering::Equal`-related elements `pop` returns is
  unspecified in the library documentation; the model removes the most
  recently pushed one.
* `tokio::spawn` / `.await`: `execute_tasks` spawns one unit per descriptor
  and awaits the join handles in spawn order, pushing each result in turn;
  the spawned bodies cannot fail, so the model produces the corresponding
  result list by that fold.
* The `format!` error strings of `schedule_tasks` only interpolate data; they
  are modelled by a structured error type carrying exactly the interpolated
  values, in order.
-/

namespace PPD

/-- Model of an `f64` value: an exact rational number, or `NaN`. -/
inductive FV where
  | num (q : ℚ)
  | nan
deriving DecidableEq

/-- Model of `f64::partial_cmp`: total on numbers, `none` when `NaN` is involved. -/
def FV.pcmp : FV → FV → Option Ordering
  | FV.num a, FV.num b =>
      some (if a < b then Ordering.lt else if b < a then Ordering.gt else Ordering.eq)
  | _, _ => none

/-- Rust `>` on `f64`: true exactly when `partial_cmp` returns `Greater`. -/
def FV.gtB (x y : FV) : Bool :=
  match x.pcmp y with
  | some Ordering.gt => true
  | _ => false

/-- Rust `<=` on `f64`: true exactly when `partial_cmp` returns `Less` or `Equal`. -/
def FV.leB (x y : FV) : Bool :=
  match x.pcmp y with
  | some Ordering.lt => true
  | some Ordering.eq => true
  | _ => false

/-- Model of `f64` addition (`NaN` absorbing). -/
def FV.add : FV → FV → FV
  | FV.num a, FV.num b => FV.num (a + b)
  | _, _ => FV.nan

/-- Model of `f64` multiplication (`NaN` absorbing). -/
def FV.mul : FV → FV → FV
  | FV.num a, FV.num b => FV.num (a * b)
  | _, _ => FV.nan

/-- The `TaskConfig` struct of scheduler.rs (field `r#type` is spelled `type` here). -/
structure TaskConfig where
  id : Nat
  type : String
  backend : String
  estimated_cost : FV
deriving DecidableEq

/-- The `TaskPriority` struct of scheduler.rs: a heap entry pairing a task with
its priority (lower priority value means higher priority). -/
structure TaskPriority where
  task : TaskConfig
  priority : FV
deriving DecidableEq

/-- The `Ord for TaskPriority` instance:
`self.partial_cmp(other).unwrap_or(Ordering::Equal)`, where the `PartialOrd`
instance compares `other.priority` with `self.priority` (reversed, so that the
max-heap behaves as a min-heap on priority). -/
def TaskPriority.cmp (a b : TaskPriority) : Ordering :=
  (FV.pcmp b.priority a.priority).getD Ordering.eq

/-- In heap pop order `a` comes no later than `b`: `cmp a b` is not `Less`. -/
def TaskPriority.geB (a b : TaskPriority) : Bool :=
  match TaskPriority.cmp a b with
  | Ordering.lt => false
  | _ => true

/-- A `BinaryHeap<TaskPriority>` is modelled by the list of its elements, most
recently pushed first (see the header comment). -/
abbrev Heap := List TaskPriority

/-- Model of `BinaryHeap::push`: add the element. -/
def heapPush (x : TaskPriority) (h : Heap) : Heap := x :: h

/-- Model of `BinaryHeap::pop`: remove and return a greatest element with
respect to `TaskPriority.cmp`, ties resolved towards the head of the list
(the most recently pushed element). -/
def popMax : Heap → Option (TaskPriority × Heap)
  | [] => none
  | x :: xs =>
    match popMax xs with
    | none => some (x, [])
    | some (m, rest) =>
      if TaskPriority.geB x m then some (x, xs) else some (m, x :: rest)

/-- The drain loop `while let Some(task_priority) = heap.pop()`, fuelled by the
heap size (each `pop` removes exactly one element). -/
def drainGo : Nat → Heap → List TaskPriority
  | 0, _ => []
  | fuel + 1, h =>
    match popMax h with
    | none => []
    | some (m, rest) => m :: drainGo fuel rest

/-- Pop every element of the heap, greatest (lowest cost) first. -/
def heapDrain (h : Heap) : List TaskPriority := drainGo h.length h

/-- Structured content of the two `format!` error strings of `schedule_tasks`:
`"Task {id} exceeds max latency: {latency}s > {max_latency}s"` and
`"Total cost exceeds budget: ${total_cost} > ${max_budget}"`. -/
inductive SchedErr where
  | latency (id : Nat) (lat limit : FV)
  | budget (total limit : FV)
deriving DecidableEq

/-- The `for task in task_configs` loop of `Scheduler::schedule_tasks`:
per-task latency check, running budget check, then push onto the heap with
priority equal to the estimated cost. -/
def scheduleLoop (ml mb : FV) : List TaskConfig → FV → Heap → Except SchedErr Heap
  | [], _, heap => Except.ok heap
  | task :: rest, total_cost, heap =>
    let latency := FV.mul task.estimated_cost (FV.num 10)
    if FV.gtB latency ml then
      Except.error (SchedErr.latency task.id latency ml)
    else
      let total' := FV.add total_cost task.estimated_cost
      if FV.gtB total' mb then
        Except.error (SchedErr.budget total' mb)
      else
        scheduleLoop ml mb rest total' (heapPush ⟨task, task.estimated_cost⟩ heap)

/-- `Scheduler::schedule_tasks`: run the validation loop from an empty heap and
zero total cost, then collect the prioritized tasks by popping the heap dry. -/
def schedule_tasks (task_configs : List TaskConfig) (max_latency max_budget : FV) :
    Except SchedErr (List TaskConfig) :=
  match scheduleLoop max_latency max_budget task_configs (FV.num 0) [] with
  | Except.error e => Except.error e
  | Except.ok heap => Except.ok ((heapDrain heap).map TaskPriority.task)

/-- `Scheduler::execute_tasks`: one spawned unit per task, each producing
`(id, "Executed task {id} on {backend}")`; the join handles are awaited in
spawn order and each result is pushed onto the result vector. -/
def execute_tasks (task_configs : List TaskConfig) : List (Nat × String) :=
  let tasks := task_configs.map fun task =>
    (task.id, "Executed task " ++ toString task.id ++ " on " ++ task.backend)
  tasks.foldl (fun results r => results ++ [r]) []

/-- The admission stage of the `schedule_tasks` loop in isolation: the same
latency and budget checks over the same running total, recording the admitted
descriptors in admission (input) order instead of pushing them onto the heap.
This names the Admission Validator component of the design; its agreement with
`schedule_tasks` is proved below. -/
def validateLoop (ml mb : FV) : List TaskConfig → FV → Except SchedErr (List TaskConfig)
  | [], _ => Except.ok []
  | task :: rest, total_cost =>
    let latency := FV.mul task.estimated_cost (FV.num 10)
    if FV.gtB latency ml then
      Except.error (SchedErr.latency task.id latency ml)
    else
      let total' := FV.add total_cost task.estimated_cost
      if FV.gtB total' mb then
        Except.error (SchedErr.budget total' mb)
      else
        Except.map (fun l => task :: l) (validateLoop ml mb rest total')

/-- Admission Validator: `validate(batch, max_latency, max_budget)`. -/
def validate (batch : List TaskConfig) (ml mb : FV) : Except SchedErr (List TaskConfig) :=
  validateLoop ml mb batch (FV.num 0)

/-- Folding the loop's `total_cost += task.estimated_cost` updates over a list
of descriptors, starting from a given accumulator. -/
def totalFrom (acc : FV) (l : List TaskConfig) : FV :=
  l.foldl (fun a t => FV.add a t.estimated_cost) acc

/-- Running total of estimated costs in input order: the loop's `total_cost`
after consuming the given prefix of the batch. -/
def runningTotal (l : List TaskConfig) : FV :=
  totalFrom (FV.num 0) l

/-- The `Scheduler` struct: `tasks` models the contents of the
`Arc<Mutex<BinaryHeap<TaskPriority>>>` field. -/
structure Scheduler where
  tasks : Heap

/-- `Scheduler::new`: an empty task queue. -/
def Scheduler.new : Scheduler := ⟨[]⟩

/-- The method `Scheduler::schedule_tasks` takes `&self` and its body never
reads nor writes `self.tasks` (it works on a local heap), so the state
component comes back unchanged next to the method's return value. -/
def Scheduler.schedule_tasks (s : Scheduler) (cfgs : List TaskConfig) (ml mb : FV) :
    Scheduler × Except SchedErr (List TaskConfig) :=
  (s, PPD.schedule_tasks cfgs ml mb)

/-- The method `Scheduler::execute_tasks` likewise never touches `self.tasks`. -/
def Scheduler.execute_tasks (s : Scheduler) (cfgs : List TaskConfig) :
    Scheduler × List (Nat × String) :=
  (s, PPD.execute_tasks cfgs)

/-! ### Basic facts about the `f64` model -/

theorem FV.leB_num_iff (a b : ℚ) : FV.leB (FV.num a) (FV.num b) = true ↔ a ≤ b := by
  unfold FV.leB FV.pcmp
  rcases lt_trichotomy a b with h | h | h
  · simp [h, h.le]
  · subst h
    simp
  · simp [h, asymm h, not_le.mpr h]

theorem FV.gtB_num_iff (a b : ℚ) : FV.gtB (FV.num a) (FV.num b) = true ↔ b < a := by
  unfold FV.gtB FV.pcmp
  rcases lt_trichotomy a b with h | h | h
  · simp [h, asymm h]
  · subst h
    simp
  · simp [h, asymm h]

/-- A true `<=` comparison forces both operands to be numbers. -/
theorem FV.leB_shape {x y : FV} (h : FV.leB x y = true) :
    ∃ a b, x = FV.num a ∧ y = FV.num b ∧ a ≤ b := by
  cases x with
  | num a =>
    cases y with
    | num b => exact ⟨a, b, rfl, rfl, (FV.leB_num_iff a b).mp h⟩
    | nan => simp [FV.leB, FV.pcmp] at h
  | nan => simp [FV.leB, FV.pcmp] at h

theorem FV.gtB_false_of_leB {x y : FV} (h : FV.leB x y = true) : FV.gtB x y = false := by
  obtain ⟨a, b, rfl, rfl, hab⟩ := FV.leB_shape h
  cases hg : FV.gtB (FV.num a) (FV.num b)
  · rfl
  · exact absurd ((FV.gtB_num_iff a b).mp hg) (not_lt.mpr hab)

/-- A product with the number 10 is a number only if the first factor is one. -/
theorem FV.mul_num_left {x : FV} {a : ℚ} (h : FV.mul x (FV.num 10) = FV.num a) :
    ∃ c, x = FV.num c := by
  cases x with
  | num c => exact ⟨c, rfl⟩
  | nan => simp [FV.mul] at h

theorem FV.add_num (a b : ℚ) : FV.add (FV.num a) (FV.num b) = FV.num (a + b) := rfl

/-! ### Facts about the heap comparator -/

/-- On numeric priorities the heap pop-order comparison is exactly `≤` on the
priorities (lower cost pops earlier). -/
theorem TaskPriority.geB_num_iff {x y : TaskPriority} {a b : ℚ}
    (hx : x.priority = FV.num a) (hy : y.priority = FV.num b) :
    TaskPriority.geB x y = true ↔ a ≤ b := by
  unfold TaskPriority.geB TaskPriority.cmp
  rw [hx, hy]
  unfold FV.pcmp
  rcases lt_trichotomy a b with h | h | h
  · simp [h, asymm h, h.le]
  · subst h
    simp
  · simp [h, asymm h, not_le.mpr h]

/-! ### Facts about the heap model -/

theorem popMax_eq_none_iff (l : Heap) : popMax l = none ↔ l = [] := by
  cases l with
  | nil => simp [popMax]
  | cons x xs =>
    simp only [popMax]
    rcases hp : popMax xs with _ | ⟨m, rest⟩ <;> simp
    split <;> simp

/-- Popping removes exactly one element: the heap is a permutation of the
popped element together with the remainder. -/
theorem popMax_perm : ∀ {l : Heap} {m : TaskPriority} {rest : Heap},
    popMax l = some (m, rest) → l.Perm (m :: rest) := by
  intro l
  induction l with
  | nil => intro m rest h; simp [popMax] at h
  | cons x xs ih =>
    intro m rest h
    simp only [popMax] at h
    rcases hp : popMax xs with _ | ⟨m', rest'⟩
    · rw [hp] at h
      simp only [Option.some.injEq, Prod.mk.injEq] at h
      obtain ⟨rfl, rfl⟩ := h
      have hx : xs = [] := (popMax_eq_none_iff xs).mp hp
      subst hx
      exact List.Perm.refl _
    · rw [hp] at h
      dsimp only at h
      cases hge : TaskPriority.geB x m' with
      | true =>
        rw [if_pos hge] at h
        simp only [Option.some.injEq, Prod.mk.injEq] at h
        obtain ⟨rfl, rfl⟩ := h
        exact List.Perm.refl _
      | false =>
        rw [if_neg (by simp [hge])] at h
        simp only [Option.some.injEq, Prod.mk.injEq] at h
        obtain ⟨rfl, rfl⟩ := h
        exact ((ih hp).cons x).trans (List.Perm.swap m' x rest')

theorem popMax_length {l : Heap} {m : TaskPriority} {rest : Heap}
    (h : popMax l = some (m, rest)) : l.length = rest.length + 1 := by
  have hl := (popMax_perm h).length_eq
  simpa using hl

/-- All priorities in the heap are numbers (no `NaN`). -/
def PriNum (l : Heap) : Prop := ∀ x ∈ l, ∃ q, x.priority = FV.num q

/-- On a heap of numeric priorities, the popped element has the least priority
(heap pop order is greatest-first for the reversed comparator). -/
theorem popMax_min : ∀ {l : Heap} {m : TaskPriority} {rest : Heap},
    PriNum l → popMax l = some (m, rest) →
    ∀ y ∈ rest, FV.leB m.priority y.priority = true := by
  intro l
  induction l with
  | nil => intro m rest _ h; simp [popMax] at h
  | cons x xs ih =>
    intro m rest hn h
    have hnx : ∃ q, x.priority = FV.num q := hn x (List.mem_cons_self x xs)
    have hnxs : PriNum xs := fun y hy => hn y (List.mem_cons_of_mem x hy)
    obtain ⟨qx, hqx⟩ := hnx
    simp only [popMax] at h
    rcases hp : popMax xs with _ | ⟨m', rest'⟩
    · rw [hp] at h
      simp only [Option.some.injEq, Prod.mk.injEq] at h
      obtain ⟨rfl, rfl⟩ := h
      intro y hy
      simp at hy
    · rw [hp] at h
      dsimp only at h
      have hm' : m' ∈ xs := (popMax_perm hp).symm.subset (List.mem_cons_self m' rest')
      obtain ⟨qm', hqm'⟩ := hnxs m' hm'
      have ihm : ∀ y ∈ rest', FV.leB m'.priority y.priority = true := ih hnxs hp
      cases hge : TaskPriority.geB x m' with
      | true =>
        rw [if_pos hge] at h
        simp only [Option.some.injEq, Prod.mk.injEq] at h
        obtain ⟨rfl, rfl⟩ := h
        have hxm' : qx ≤ qm' := (TaskPriority.geB_num_iff hqx hqm').mp hge
        intro y hy
        obtain ⟨qy, hqy⟩ := hnxs y hy
        rw [hqx, hqy, FV.leB_num_iff]
        rcases List.mem_cons.mp ((popMax_perm hp).subset hy) with rfl | hy'
        · rw [hqm'] at hqy
          cases hqy
          exact hxm'
        · have hym := ihm y hy'
          rw [hqm', hqy, FV.leB_num_iff] at hym
          exact hxm'.trans hym
      | false =>
        rw [if_neg (by simp [hge])] at h
        simp only [Option.some.injEq, Prod.mk.injEq] at h
        obtain ⟨rfl, rfl⟩ := h
        have hmx : qm' ≤ qx := by
          by_contra hc
          have : TaskPriority.geB x m' = true := (TaskPriority.geB_num_iff hqx hqm').mpr (not_le.mp hc).le
          rw [hge] at this
          cases this
        intro y hy
        rcases List.mem_cons.mp hy with rfl | hy'
        · rw [hqm', hqx, FV.leB_num_iff]
          exact hmx
        · exact ihm y hy'

/-- With enough fuel, draining pops every element: the drained sequence is a
permutation of the heap contents. -/
theorem drainGo_perm : ∀ (fuel : Nat) (l : Heap), l.length ≤ fuel →
    (drainGo fuel l).Perm l := by
  intro fuel
  induction fuel with
  | zero =>
    intro l hl
    have : l = [] := List.eq_nil_of_length_eq_zero (Nat.le_zero.mp hl)
    subst this
    simp [drainGo]
  | succ n ih =>
    intro l hl
    rcases hp : popMax l with _ | ⟨m, rest⟩
    · have : l = [] := (popMax_eq_none_iff l).mp hp
      subst this
      simp [drainGo, popMax]
    · have hperm := popMax_perm hp
      have hlen := popMax_length hp
      have hrest : rest.length ≤ n := by omega
      simp only [drainGo, hp]
      exact ((ih rest hrest).cons m).trans hperm.symm

/-- With numeric priorities, draining yields the elements in nondecreasing
priority order. -/
theorem drainGo_pairwise : ∀ (fuel : Nat) (l : Heap), PriNum l → l.length ≤ fuel →
    (drainGo fuel l).Pairwise (fun a b => FV.leB a.priority b.priority = true) := by
  intro fuel
  induction fuel with
  | zero =>
    intro l _ _
    simp [drainGo]
  | succ n ih =>
    intro l hn hl
    rcases hp : popMax l with _ | ⟨m, rest⟩
    · simp [drainGo, hp]
    · simp only [drainGo, hp]
      have hperm := popMax_perm hp
      have hlen := popMax_length hp
      have hnrest : PriNum rest := fun y hy =>
        hn y (hperm.symm.subset (List.mem_cons_of_mem m hy))
      refine List.Pairwise.cons ?_ (ih rest hnrest (by omega))
      intro y hy
      have hyrest : y ∈ rest := (drainGo_perm n rest (by omega)).subset hy
      exact popMax_min hn hp y hyrest

theorem heapDrain_perm (l : Heap) : (heapDrain l).Perm l :=
  drainGo_perm l.length l (Nat.le_refl _)

theorem heapDrain_pairwise {l : Heap} (hn : PriNum l) :
    (heapDrain l).Pairwise (fun a b => FV.leB a.priority b.priority = true) :=
  drainGo_pairwise l.length l hn (Nat.le_refl _)

/-! ### Facts about the validation loop -/

/-- When every descriptor passes the latency check and every running total
stays within budget, the loop admits the whole batch and the final heap holds
one `TaskPriority` per input descriptor, with priority equal to its cost. -/
theorem scheduleLoop_ok (ml mb : FV) :
    ∀ (cfgs : List TaskConfig) (q : ℚ) (heap : Heap),
    (∀ t ∈ cfgs, FV.leB (FV.mul t.estimated_cost (FV.num 10)) ml = true) →
    (∀ k < cfgs.length, FV.leB (totalFrom (FV.num q) (cfgs.take (k+1))) mb = true) →
    scheduleLoop ml mb cfgs (FV.num q) heap
      = Except.ok ((cfgs.map fun t => TaskPriority.mk t t.estimated_cost).reverse ++ heap) := by
  intro cfgs
  induction cfgs with
  | nil =>
    intro q heap _ _
    simp [scheduleLoop]
  | cons t rest ih =>
    intro q heap hlat hbud
    have h1 : FV.leB (FV.mul t.estimated_cost (FV.num 10)) ml = true :=
      hlat t (List.mem_cons_self t rest)
    obtain ⟨la, lb, hmul, hml, _⟩ := FV.leB_shape h1
    obtain ⟨c, hc⟩ := FV.mul_num_left hmul
    have hgt1 : FV.gtB (FV.mul t.estimated_cost (FV.num 10)) ml = false :=
      FV.gtB_false_of_leB h1
    have h2 : FV.leB (totalFrom (FV.num q) [t]) mb = true := by
      have := hbud 0 (by simp)
      simpa using this
    have htot : totalFrom (FV.num q) [t] = FV.add (FV.num q) t.estimated_cost := rfl
    have hgt2 : FV.gtB (FV.add (FV.num q) t.estimated_cost) mb = false := by
      rw [← htot]
      exact FV.gtB_false_of_leB h2
    have hadd : FV.add (FV.num q) t.estimated_cost = FV.num (q + c) := by
      rw [hc, FV.add_num]
    have hlat' : ∀ s ∈ rest, FV.leB (FV.mul s.estimated_cost (FV.num 10)) ml = true :=
      fun s hs => hlat s (List.mem_cons_of_mem t hs)
    have hbud' : ∀ k < rest.length,
        FV.leB (totalFrom (FV.num (q + c)) (rest.take (k+1))) mb = true := by
      intro k hk
      have := hbud (k+1) (by simpa using Nat.succ_lt_succ hk)
      rw [List.take_succ_cons] at this
      have hstep : totalFrom (FV.num q) (t :: rest.take (k+1))
          = totalFrom (FV.num (q + c)) (rest.take (k+1)) := by
        unfold totalFrom
        rw [List.foldl_cons, hadd]
      rwa [hstep] at this
    simp only [scheduleLoop]
    rw [hgt1, hgt2, hadd]
    simp only [Bool.false_eq_true, if_false]
    rw [ih (q + c) (heapPush ⟨t, t.estimated_cost⟩ heap) hlat' hbud']
    simp [heapPush]

/-- If every earlier descriptor passes both checks and a descriptor fails the
latency check, the loop stops there with exactly that latency violation,
whatever descriptors follow. -/
theorem scheduleLoop_latency_error (ml mb : FV) :
    ∀ (pre : List TaskConfig) (t : TaskConfig) (post : List TaskConfig) (total : FV)
      (heap : Heap),
    (∀ s ∈ pre, FV.gtB (FV.mul s.estimated_cost (FV.num 10)) ml = false) →
    (∀ k < pre.length, FV.gtB (totalFrom total (pre.take (k+1))) mb = false) →
    FV.gtB (FV.mul t.estimated_cost (FV.num 10)) ml = true →
    scheduleLoop ml mb (pre ++ t :: post) total heap
      = Except.error (SchedErr.latency t.id (FV.mul t.estimated_cost (FV.num 10)) ml) := by
  intro pre
  induction pre with
  | nil =>
    intro t post total heap _ _ ht
    simp only [List.nil_append, scheduleLoop]
    rw [ht]
    simp
  | cons s pre' ih =>
    intro t post total heap hlat hbud ht
    have hs1 : FV.gtB (FV.mul s.estimated_cost (FV.num 10)) ml = false :=
      hlat s (List.mem_cons_self s pre')
    have hs2 : FV.gtB (FV.add total s.estimated_cost) mb = false := by
      have := hbud 0 (by simp)
      simpa [totalFrom] using this
    have hlat' : ∀ u ∈ pre', FV.gtB (FV.mul u.estimated_cost (FV.num 10)) ml = false :=
      fun u hu => hlat u (List.mem_cons_of_mem s hu)
    have hbud' : ∀ k < pre'.length,
        FV.gtB (totalFrom (FV.add total s.estimated_cost) (pre'.take (k+1))) mb = false := by
      intro k hk
      have := hbud (k+1) (by simpa using Nat.succ_lt_succ hk)
      rw [List.take_succ_cons] at this
      simpa [totalFrom] using this
    simp only [List.cons_append, scheduleLoop]
    rw [hs1, hs2]
    simp only [Bool.false_eq_true, if_false]
    exact ih t post (FV.add total s.estimated_cost) _ hlat' hbud' ht

/-- If every descriptor up to and including index `k` passes the latency check,
every running total before `k` stays within budget, and the running total
through `k` exceeds it, the loop stops at `k` with exactly that budget
violation, whatever descriptors follow. -/
theorem scheduleLoop_budget_error (ml mb : FV) :
    ∀ (pre : List TaskConfig) (t : TaskConfig) (post : List TaskConfig) (total : FV)
      (heap : Heap),
    (∀ s ∈ pre ++ [t], FV.gtB (FV.mul s.estimated_cost (FV.num 10)) ml = false) →
    (∀ k < pre.length, FV.gtB (totalFrom total (pre.take (k+1))) mb = false) →
    FV.gtB (totalFrom total (pre ++ [t])) mb = true →
    scheduleLoop ml mb (pre ++ t :: post) total heap
      = Except.error (SchedErr.budget (totalFrom total (pre ++ [t])) mb) := by
  intro pre
  induction pre with
  | nil =>
    intro t post total heap hlat _ ht
    have h1 : FV.gtB (FV.mul t.estimated_cost (FV.num 10)) ml = false :=
      hlat t (by simp)
    have ht' : FV.gtB (FV.add total t.estimated_cost) mb = true := by
      simpa [totalFrom] using ht
    simp only [List.nil_append, scheduleLoop]
    rw [h1]
    simp only [Bool.false_eq_true, if_false]
    rw [ht']
    simp [totalFrom]
  | cons s pre' ih =>
    intro t post total heap hlat hbud ht
    have hs1 : FV.gtB (FV.mul s.estimated_cost (FV.num 10)) ml = false :=
      hlat s (List.mem_cons_self s _)
    have hs2 : FV.gtB (FV.add total s.estimated_cost) mb = false := by
      have := hbud 0 (by simp)
      simpa [totalFrom] using this
    have hlat' : ∀ u ∈ pre' ++ [t], FV.gtB (FV.mul u.estimated_cost (FV.num 10)) ml = false :=
      fun u hu => hlat u (List.mem_cons_of_mem s hu)
    have hbud' : ∀ k < pre'.length,
        FV.gtB (totalFrom (FV.add total s.estimated_cost) (pre'.take (k+1))) mb = false := by
      intro k hk
      have := hbud (k+1) (by simpa using Nat.succ_lt_succ hk)
      rw [List.take_succ_cons] at this
      simpa [totalFrom] using this
    have ht' : FV.gtB (totalFrom (FV.add total s.estimated_cost) (pre' ++ [t])) mb = true := by
      simpa [totalFrom] using ht
    simp only [List.cons_append, scheduleLoop]
    rw [hs1, hs2]
    simp only [Bool.false_eq_true, if_false]
    exact ih t post (FV.add total s.estimated_cost) _ hlat' hbud' ht'

/-- Whenever the validator succeeds it returns its input unchanged. -/
theorem validateLoop_ok_eq (ml mb : FV) :
    ∀ (cfgs : List TaskConfig) (total : FV) (out : List TaskConfig),
    validateLoop ml mb cfgs total = Except.ok out → out = cfgs := by
  intro cfgs
  induction cfgs with
  | nil =>
    intro total out h
    simp only [validateLoop, Except.ok.injEq] at h
    exact h.symm
  | cons t rest ih =>
    intro total out h
    simp only [validateLoop] at h
    by_cases h1 : FV.gtB (FV.mul t.estimated_cost (FV.num 10)) ml = true
    · rw [if_pos h1] at h
      cases h
    · rw [if_neg h1] at h
      by_cases h2 : FV.gtB (FV.add total t.estimated_cost) mb = true
      · rw [if_pos h2] at h
        cases h
      · rw [if_neg h2] at h
        rcases hv : validateLoop ml mb rest (FV.add total t.estimated_cost) with e | adm
        · rw [hv] at h
          cases h
        · rw [hv] at h
          simp only [Except.map, Except.ok.injEq] at h
          rw [← h, ih _ adm hv]

/-- The validation loop and the scheduling loop agree step by step: they fail
with the same violation, or both succeed, the validator admitting exactly the
input and the scheduler holding one heap entry per admitted descriptor. -/
theorem loops_agree (ml mb : FV) :
    ∀ (cfgs : List TaskConfig) (total : FV) (heap : Heap),
    (∃ e, validateLoop ml mb cfgs total = Except.error e ∧
          scheduleLoop ml mb cfgs total heap = Except.error e)
    ∨ (∃ adm hp, validateLoop ml mb cfgs total = Except.ok adm ∧
          scheduleLoop ml mb cfgs total heap = Except.ok hp ∧
          hp = (adm.map fun t => TaskPriority.mk t t.estimated_cost).reverse ++ heap) := by
  intro cfgs
  induction cfgs with
  | nil =>
    intro total heap
    right
    exact ⟨[], heap, rfl, rfl, by simp⟩
  | cons t rest ih =>
    intro total heap
    by_cases h1 : FV.gtB (FV.mul t.estimated_cost (FV.num 10)) ml = true
    · left
      refine ⟨SchedErr.latency t.id (FV.mul t.estimated_cost (FV.num 10)) ml, ?_, ?_⟩
      · simp only [validateLoop]
        rw [if_pos h1]
      · simp only [scheduleLoop]
        rw [if_pos h1]
    · by_cases h2 : FV.gtB (FV.add total t.estimated_cost) mb = true
      · left
        refine ⟨SchedErr.budget (FV.add total t.estimated_cost) mb, ?_, ?_⟩
        · simp only [validateLoop]
          rw [if_neg h1, if_pos h2]
        · simp only [scheduleLoop]
          rw [if_neg h1, if_pos h2]
      · rcases ih (FV.add total t.estimated_cost)
            (heapPush ⟨t, t.estimated_cost⟩ heap) with ⟨e, hv, hs⟩ | ⟨adm, hp, hv, hs, hshape⟩
        · left
          refine ⟨e, ?_, ?_⟩
          · simp only [validateLoop]
            rw [if_neg h1, if_neg h2, hv]
            rfl
          · simp only [scheduleLoop]
            rw [if_neg h1, if_neg h2]
            exact hs
        · right
          refine ⟨t :: adm, hp, ?_, ?_, ?_⟩
          · simp only [validateLoop]
            rw [if_neg h1, if_neg h2, hv]
            rfl
          · simp only [scheduleLoop]
            rw [if_neg h1, if_neg h2]
            exact hs
          · rw [hshape]
            simp [heapPush]

/-! ### Facts about the executor -/

theorem foldl_push_eq_append :
    ∀ (l acc : List (Nat × String)), l.foldl (fun results r => results ++ [r]) acc = acc ++ l := by
  intro l
  induction l with
  | nil => intro acc; simp
  | cons x xs ih =>
    intro acc
    rw [List.foldl_cons, ih]
    simp

/-- The executor produces exactly the per-descriptor outcome messages, in
input order. -/
theorem execute_tasks_spec (cfgs : List TaskConfig) :
    execute_tasks cfgs
      = cfgs.map fun t => (t.id, "Executed task " ++ toString t.id ++ " on " ++ t.backend) := by
  unfold execute_tasks
  rw [foldl_push_eq_append]
  simp

/-! ### Claim theorems -/

/-- C4: for every non-empty admitted batch, `execute_tasks` returns exactly
`len(batch)` outcomes, one per input descriptor, whose id list (hence id set)
equals the input id list, and the outcome at each position is exactly
`(id, "Executed task {id} on {backend}")` for the descriptor at that
position. -/
theorem execute_tasks_outcomes_of_nonempty (cfgs : List TaskConfig) (_hne : cfgs ≠ []) :
    (execute_tasks cfgs).length = cfgs.length
    ∧ (execute_tasks cfgs).map Prod.fst = cfgs.map TaskConfig.id
    ∧ ∀ (i : Nat) (t : TaskConfig), cfgs[i]? = some t →
        (execute_tasks cfgs)[i]?
          = some (t.id, "Executed task " ++ toString t.id ++ " on " ++ t.backend) := by
  refine ⟨?_, ?_, ?_⟩
  · rw [execute_tasks_spec]
    exact List.length_map _ _
  · rw [execute_tasks_spec, List.map_map]
    rfl
  · intro i t hti
    rw [execute_tasks_spec]
    simp [List.getElem?_map, hti]

/-- Witness for C4 at a concrete two-descriptor batch. -/
theorem execute_tasks_outcomes_of_nonempty_witness :
    ([⟨0, "quantum", "cirq", FV.num 5⟩, ⟨1, "classical", "local", FV.num 3⟩]
        : List TaskConfig) ≠ []
    ∧ (execute_tasks [⟨0, "quantum", "cirq", FV.num 5⟩, ⟨1, "classical", "local", FV.num 3⟩]).length
        = ([⟨0, "quantum", "cirq", FV.num 5⟩, ⟨1, "classical", "local", FV.num 3⟩]
            : List TaskConfig).length := by
  refine ⟨by simp, ?_⟩
  exact (execute_tasks_outcomes_of_nonempty
    [⟨0, "quantum", "cirq", FV.num 5⟩, ⟨1, "classical", "local", FV.num 3⟩] (by simp)).1

/-- C5: the scheduler's lock-guarded task queue is never read or written by
either method (the state component of each call is its input state, and a
fresh scheduler's queue is empty), both methods are pure functions of their
explicit arguments, and the error type carries no admitted descriptors: every
possible error is a latency or budget violation holding only ids, costs and
ceilings. -/
theorem scheduler_state_untouched_and_pure (s : Scheduler) (cfgs : List TaskConfig)
    (ml mb : FV) :
    (Scheduler.schedule_tasks s cfgs ml mb).1 = s
    ∧ (Scheduler.execute_tasks s cfgs).1 = s
    ∧ (Scheduler.schedule_tasks s cfgs ml mb).2 = schedule_tasks cfgs ml mb
    ∧ (Scheduler.execute_tasks s cfgs).2 = execute_tasks cfgs
    ∧ Scheduler.new.tasks = []
    ∧ ∀ e : SchedErr, (∃ i lat lim, e = SchedErr.latency i lat lim)
        ∨ (∃ tot lim, e = SchedErr.budget tot lim) := by
  refine ⟨rfl, rfl, rfl, rfl, rfl, ?_⟩
  intro e
  cases e with
  | latency i lat lim => exact Or.inl ⟨i, lat, lim, rfl⟩
  | budget tot lim => exact Or.inr ⟨tot, lim, rfl⟩

/-- C6: admission is all-or-nothing. Either the validator and the scheduler
fail with the same violation (nothing admitted), or the validator returns the
entire batch unchanged in input order and the scheduler succeeds with a
permutation of it: there is no partial admission. -/
theorem validate_all_or_nothing (batch : List TaskConfig) (ml mb : FV) :
    (∃ e, validate batch ml mb = Except.error e
        ∧ schedule_tasks batch ml mb = Except.error e)
    ∨ (validate batch ml mb = Except.ok batch
        ∧ ∃ out, schedule_tasks batch ml mb = Except.ok out ∧ out.Perm batch) := by
  rcases loops_agree ml mb batch (FV.num 0) [] with ⟨e, hv, hs⟩ | ⟨adm, hp, hv, hs, hshape⟩
  · left
    refine ⟨e, hv, ?_⟩
    unfold schedule_tasks
    rw [hs]
  · right
    have hadm : adm = batch := validateLoop_ok_eq ml mb batch (FV.num 0) adm hv
    rw [hadm] at hv hshape
    refine ⟨hv, (heapDrain hp).map TaskPriority.task, ?_, ?_⟩
    · unfold schedule_tasks
      rw [hs]
    · have h1 : (heapDrain hp).Perm hp := heapDrain_perm hp
      have h2 : ((heapDrain hp).map TaskPriority.task).Perm (hp.map TaskPriority.task) :=
        h1.map _
      have h3 : hp.map TaskPriority.task = batch.reverse := by
        rw [hshape]
        simp only [List.append_nil, List.map_reverse, List.map_map]
        rw [show (TaskPriority.task ∘ fun t : TaskConfig =>
          ({ task := t, priority := t.estimated_cost } : TaskPriority))
            = fun t : TaskConfig => t from rfl]
        simp
      rw [h3] at h2
      exact h2.trans (List.reverse_perm batch)

/-- C7: executing an empty batch yields an empty result. -/
theorem execute_tasks_nil_eq_nil : execute_tasks [] = [] := rfl

/-- C8: repeated calls of `schedule_tasks` on identical inputs and ceilings
return the same value — in particular the same Ok/Err outcome and, on
success, the same sequence of costs (so descriptors with strictly distinct
costs sit in identical positions). -/
theorem schedule_tasks_repeated_call_equal (cfgs : List TaskConfig) (ml mb : FV) :
    schedule_tasks cfgs ml mb = schedule_tasks cfgs ml mb
    ∧ Except.map (List.map TaskConfig.estimated_cost) (schedule_tasks cfgs ml mb)
        = Except.map (List.map TaskConfig.estimated_cost) (schedule_tasks cfgs ml mb) :=
  ⟨rfl, rfl⟩

/-- C9: `execute_tasks` returns its outcomes in exactly the input order — the
result is the list of `(id, "Executed task {id} on {backend}")` pairs mapped
over the input, a deterministic order-preserving function. -/
theorem execute_tasks_input_order (cfgs : List TaskConfig) :
    execute_tasks cfgs
      = cfgs.map fun t => (t.id, "Executed task " ++ toString t.id ++ " on " ++ t.backend) :=
  execute_tasks_spec cfgs

/-- C10: the heap comparison falls back to `Ordering.eq` whenever the two
priorities are incomparable (`partial_cmp` returns `None`, as for `NaN`), and
`schedule_tasks` is total: on every input, including `NaN` costs, it returns
either Ok or an error. -/
theorem taskPriority_cmp_nan_eq_and_schedule_total :
    (∀ a b : TaskPriority, FV.pcmp b.priority a.priority = none →
        TaskPriority.cmp a b = Ordering.eq)
    ∧ ∀ (cfgs : List TaskConfig) (ml mb : FV),
        (∃ out, schedule_tasks cfgs ml mb = Except.ok out)
        ∨ (∃ e, schedule_tasks cfgs ml mb = Except.error e) := by
  constructor
  · intro a b h
    unfold TaskPriority.cmp
    rw [h]
    rfl
  · intro cfgs ml mb
    unfold schedule_tasks
    rcases scheduleLoop ml mb cfgs (FV.num 0) [] with e | heap
    · exact Or.inr ⟨e, rfl⟩
    · exact Or.inl ⟨(heapDrain heap).map TaskPriority.task, rfl⟩

/-- C1: when every derived latency is within `max_latency` and every running
prefix total of estimated costs is within `max_budget`, `schedule_tasks`
succeeds and returns exactly the input descriptors (a permutation — none
added, removed or mutated), in ascending order of `estimated_cost`. -/
theorem schedule_tasks_ok_sorted_of_within_limits
    (cfgs : List TaskConfig) (ml mb : FV)
    (hlat : ∀ t ∈ cfgs, FV.leB (FV.mul t.estimated_cost (FV.num 10)) ml = true)
    (hbud : ∀ k < cfgs.length, FV.leB (runningTotal (cfgs.take (k+1))) mb = true) :
    ∃ out, schedule_tasks cfgs ml mb = Except.ok out ∧ out.Perm cfgs ∧
      out.Pairwise (fun a b => FV.leB a.estimated_cost b.estimated_cost = true) := by
  have hloop := scheduleLoop_ok ml mb cfgs 0 [] hlat (fun k hk => hbud k hk)
  have hloop' : scheduleLoop ml mb cfgs (FV.num 0) []
      = Except.ok ((cfgs.map fun t => TaskPriority.mk t t.estimated_cost).reverse) := by
    rw [hloop]
    simp
  refine ⟨(heapDrain ((cfgs.map fun t => TaskPriority.mk t t.estimated_cost).reverse)).map
      TaskPriority.task, ?_, ?_, ?_⟩
  · unfold schedule_tasks
    rw [hloop']
  · have h1 := heapDrain_perm ((cfgs.map fun t => TaskPriority.mk t t.estimated_cost).reverse)
    have h2 := h1.map TaskPriority.task
    have h3 : ((cfgs.map fun t => TaskPriority.mk t t.estimated_cost).reverse).map
        TaskPriority.task = cfgs.reverse := by
      simp only [List.map_reverse, List.map_map]
      rw [show (TaskPriority.task ∘ fun t : TaskConfig =>
        ({ task := t, priority := t.estimated_cost } : TaskPriority))
          = fun t : TaskConfig => t from rfl]
      simp
    rw [h3] at h2
    exact h2.trans (List.reverse_perm cfgs)
  · have hnum : PriNum ((cfgs.map fun t => TaskPriority.mk t t.estimated_cost).reverse) := by
      intro x hx
      rw [List.mem_reverse, List.mem_map] at hx
      obtain ⟨t, ht, rfl⟩ := hx
      have h1 := hlat t ht
      obtain ⟨la, lb, hmul, _, _⟩ := FV.leB_shape h1
      obtain ⟨c, hc⟩ := FV.mul_num_left hmul
      exact ⟨c, hc⟩
    have hshape : ∀ x ∈ (cfgs.map fun t => TaskPriority.mk t t.estimated_cost).reverse,
        x.priority = x.task.estimated_cost := by
      intro x hx
      rw [List.mem_reverse, List.mem_map] at hx
      obtain ⟨t, _, rfl⟩ := hx
      rfl
    have hpw := heapDrain_pairwise hnum
    have hdsub := (heapDrain_perm
      ((cfgs.map fun t => TaskPriority.mk t t.estimated_cost).reverse)).subset
    rw [List.pairwise_map]
    exact hpw.imp_of_mem fun ha hb hr => by
      rw [← hshape _ (hdsub ha), ← hshape _ (hdsub hb)]
      exact hr

/-- Witness for C1 at a concrete in-limits batch (costs 5 and 3, latency
ceiling 100, budget 10). -/
theorem schedule_tasks_ok_sorted_of_within_limits_witness :
    (∀ t ∈ ([⟨0, "quantum", "cirq", FV.num 5⟩, ⟨1, "classical", "local", FV.num 3⟩]
        : List TaskConfig), FV.leB (FV.mul t.estimated_cost (FV.num 10)) (FV.num 100) = true)
    ∧ (∀ k < ([⟨0, "quantum", "cirq", FV.num 5⟩, ⟨1, "classical", "local", FV.num 3⟩]
        : List TaskConfig).length,
        FV.leB (runningTotal (([⟨0, "quantum", "cirq", FV.num 5⟩,
          ⟨1, "classical", "local", FV.num 3⟩] : List TaskConfig).take (k+1)))
          (FV.num 10) = true)
    ∧ ∃ out, schedule_tasks [⟨0, "quantum", "cirq", FV.num 5⟩,
        ⟨1, "classical", "local", FV.num 3⟩] (FV.num 100) (FV.num 10) = Except.ok out
        ∧ out.Perm [⟨0, "quantum", "cirq", FV.num 5⟩, ⟨1, "classical", "local", FV.num 3⟩]
        ∧ out.Pairwise (fun a b => FV.leB a.estimated_cost b.estimated_cost = true) := by
  refine ⟨?_, ?_, ?_⟩
  · intro t ht
    rcases List.mem_cons.mp ht with rfl | ht'
    · norm_num [FV.leB, FV.pcmp, FV.mul]
    · rcases List.mem_cons.mp ht' with rfl | h
      · norm_num [FV.leB, FV.pcmp, FV.mul]
      · simp at h
  · intro k hk
    simp only [List.length_cons, List.length_nil] at hk
    interval_cases k
    · norm_num [runningTotal, totalFrom, FV.add, FV.leB, FV.pcmp]
    · norm_num [runningTotal, totalFrom, FV.add, FV.leB, FV.pcmp]
  · refine schedule_tasks_ok_sorted_of_within_limits _ _ _ ?_ ?_
    · intro t ht
      rcases List.mem_cons.mp ht with rfl | ht'
      · norm_num [FV.leB, FV.pcmp, FV.mul]
      · rcases List.mem_cons.mp ht' with rfl | h
        · norm_num [FV.leB, FV.pcmp, FV.mul]
        · simp at h
    · intro k hk
      simp only [List.length_cons, List.length_nil] at hk
      interval_cases k
      · norm_num [runningTotal, totalFrom, FV.add, FV.leB, FV.pcmp]
      · norm_num [runningTotal, totalFrom, FV.add, FV.leB, FV.pcmp]

/-- Counterexample to C2 as stated: in the batch `[cost 2, cost 20]` with
`max_latency = 100` and `max_budget = 1`, the second descriptor's derived
latency (200) exceeds the ceiling, yet `schedule_tasks` fails with the
budget violation raised at the earlier descriptor, not with a latency
violation naming id 1. -/
theorem latency_claim_counterexample :
    FV.gtB (FV.mul (FV.num 20) (FV.num 10)) (FV.num 100) = true
    ∧ schedule_tasks [⟨0, "a", "b", FV.num 2⟩, ⟨1, "a", "b", FV.num 20⟩]
        (FV.num 100) (FV.num 1) = Except.error (SchedErr.budget (FV.num 2) (FV.num 1))
    ∧ ∀ lat lim, schedule_tasks [⟨0, "a", "b", FV.num 2⟩, ⟨1, "a", "b", FV.num 20⟩]
        (FV.num 100) (FV.num 1) ≠ Except.error (SchedErr.latency 1 lat lim) := by
  have h : schedule_tasks [⟨0, "a", "b", FV.num 2⟩, ⟨1, "a", "b", FV.num 20⟩]
      (FV.num 100) (FV.num 1) = Except.error (SchedErr.budget (FV.num 2) (FV.num 1)) := by
    norm_num [schedule_tasks, scheduleLoop, FV.mul, FV.gtB, FV.pcmp, FV.add, heapPush]
  refine ⟨by norm_num [FV.gtB, FV.pcmp, FV.mul], h, ?_⟩
  intro lat lim hc
  rw [h] at hc
  injection hc with hc'
  cases hc'

/-- C2 (amended): if a descriptor's derived latency exceeds `max_latency` and
every earlier descriptor passes both its latency check and its running budget
check, `schedule_tasks` fails with the latency violation carrying that
descriptor's id, the computed latency and the ceiling; descriptors after the
failing one are never examined (the result is the same for every `post`). -/
theorem schedule_tasks_latency_error_of_first_violation
    (pre : List TaskConfig) (t : TaskConfig) (post : List TaskConfig) (ml mb : FV)
    (hpre_lat : ∀ s ∈ pre, FV.gtB (FV.mul s.estimated_cost (FV.num 10)) ml = false)
    (hpre_bud : ∀ k < pre.length, FV.gtB (runningTotal (pre.take (k+1))) mb = false)
    (ht : FV.gtB (FV.mul t.estimated_cost (FV.num 10)) ml = true) :
    schedule_tasks (pre ++ t :: post) ml mb
      = Except.error (SchedErr.latency t.id (FV.mul t.estimated_cost (FV.num 10)) ml) := by
  have h := scheduleLoop_latency_error ml mb pre t post (FV.num 0) []
    hpre_lat (fun k hk => hpre_bud k hk) ht
  unfold schedule_tasks
  rw [h]

/-- Witness for C2 (amended): the first descriptor (cost 1) passes both
checks, the second (cost 20, derived latency 200) violates the latency
ceiling 100 under budget 50. -/
theorem schedule_tasks_latency_error_of_first_violation_witness :
    (∀ s ∈ ([⟨0, "a", "b", FV.num 1⟩] : List TaskConfig),
        FV.gtB (FV.mul s.estimated_cost (FV.num 10)) (FV.num 100) = false)
    ∧ (∀ k < ([⟨0, "a", "b", FV.num 1⟩] : List TaskConfig).length,
        FV.gtB (runningTotal (([⟨0, "a", "b", FV.num 1⟩] : List TaskConfig).take (k+1)))
          (FV.num 50) = false)
    ∧ FV.gtB (FV.mul (FV.num 20) (FV.num 10)) (FV.num 100) = true
    ∧ schedule_tasks ([⟨0, "a", "b", FV.num 1⟩] ++ ⟨1, "a", "b", FV.num 20⟩ :: [])
        (FV.num 100) (FV.num 50)
        = Except.error (SchedErr.latency 1 (FV.mul (FV.num 20) (FV.num 10)) (FV.num 100)) := by
  refine ⟨?_, ?_, ?_, ?_⟩
  · intro s hs
    rcases List.mem_cons.mp hs with rfl | h
    · norm_num [FV.gtB, FV.pcmp, FV.mul]
    · simp at h
  · intro k hk
    simp only [List.length_cons, List.length_nil] at hk
    interval_cases k
    norm_num [runningTotal, totalFrom, FV.add, FV.gtB, FV.pcmp]
  · norm_num [FV.gtB, FV.pcmp, FV.mul]
  · refine schedule_tasks_latency_error_of_first_violation _ _ _ _ _ ?_ ?_ ?_
    · intro s hs
      rcases List.mem_cons.mp hs with rfl | h
      · norm_num [FV.gtB, FV.pcmp, FV.mul]
      · simp at h
    · intro k hk
      simp only [List.length_cons, List.length_nil] at hk
      interval_cases k
      norm_num [runningTotal, totalFrom, FV.add, FV.gtB, FV.pcmp]
    · norm_num [FV.gtB, FV.pcmp, FV.mul]

/-- C3: iterating in input order with no latency violation up to and including
the failing index, if the running cumulative cost first exceeds `max_budget`
at that index then `schedule_tasks` fails with the budget violation carrying
the cumulative total through that index (including its cost) and the ceiling;
later descriptors are never examined (the result is the same for every
`post`). -/
theorem schedule_tasks_budget_error_of_first_excess
    (pre : List TaskConfig) (t : TaskConfig) (post : List TaskConfig) (ml mb : FV)
    (hlat : ∀ s ∈ pre ++ [t], FV.gtB (FV.mul s.estimated_cost (FV.num 10)) ml = false)
    (hpre : ∀ k < pre.length, FV.gtB (runningTotal (pre.take (k+1))) mb = false)
    (ht : FV.gtB (runningTotal (pre ++ [t])) mb = true) :
    schedule_tasks (pre ++ t :: post) ml mb
      = Except.error (SchedErr.budget (runningTotal (pre ++ [t])) mb) := by
  have h := scheduleLoop_budget_error ml mb pre t post (FV.num 0) []
    hlat (fun k hk => hpre k hk) ht
  unfold schedule_tasks
  rw [h]
  rfl

/-- Witness for C3: costs `[1, 2]` under budget 2 — the total first exceeds
the budget at index 1 with cumulative total 3. -/
theorem schedule_tasks_budget_error_of_first_excess_witness :
    (∀ s ∈ (([⟨0, "a", "b", FV.num 1⟩] : List TaskConfig) ++ [⟨1, "a", "b", FV.num 2⟩]),
        FV.gtB (FV.mul s.estimated_cost (FV.num 10)) (FV.num 100) = false)
    ∧ (∀ k < ([⟨0, "a", "b", FV.num 1⟩] : List TaskConfig).length,
        FV.gtB (runningTotal (([⟨0, "a", "b", FV.num 1⟩] : List TaskConfig).take (k+1)))
          (FV.num 2) = false)
    ∧ FV.gtB (runningTotal (([⟨0, "a", "b", FV.num 1⟩] : List TaskConfig)
        ++ [⟨1, "a", "b", FV.num 2⟩])) (FV.num 2) = true
    ∧ schedule_tasks (([⟨0, "a", "b", FV.num 1⟩] : List TaskConfig)
          ++ ⟨1, "a", "b", FV.num 2⟩ :: []) (FV.num 100) (FV.num 2)
        = Except.error (SchedErr.budget
            (runningTotal (([⟨0, "a", "b", FV.num 1⟩] : List TaskConfig)
              ++ [⟨1, "a", "b", FV.num 2⟩])) (FV.num 2)) := by
  refine ⟨?_, ?_, ?_, ?_⟩
  · intro s hs
    rcases List.mem_cons.mp hs with rfl | hs'
    · norm_num [FV.gtB, FV.pcmp, FV.mul]
    · rcases List.mem_cons.mp hs' with rfl | h
      · norm_num [FV.gtB, FV.pcmp, FV.mul]
      · simp at h
  · intro k hk
    simp only [List.length_cons, List.length_nil] at hk
    interval_cases k
    norm_num [runningTotal, totalFrom, FV.add, FV.gtB, FV.pcmp]
  · norm_num [runningTotal, totalFrom, FV.add, FV.gtB, FV.pcmp]
  · refine schedule_tasks_budget_error_of_first_excess _ _ _ _ _ ?_ ?_ ?_
    · intro s hs
      rcases List.mem_cons.mp hs with rfl | hs'
      · norm_num [FV.gtB, FV.pcmp, FV.mul]
      · rcases List.mem_cons.mp hs' with rfl | h
        · norm_num [FV.gtB, FV.pcmp, FV.mul]
        · simp at h
    · intro k hk
      simp only [List.length_cons, List.length_nil] at hk
      interval_cases k
      norm_num [runningTotal, totalFrom, FV.add, FV.gtB, FV.pcmp]
    · norm_num [runningTotal, totalFrom, FV.add, FV.gtB, FV.pcmp]

/-- Witness for C10: the comparison of a `NaN` priority against a numeric one
is `Ordering.eq`, and a singleton `NaN`-cost batch still returns a result. -/
theorem taskPriority_cmp_nan_eq_and_schedule_total_witness :
    TaskPriority.cmp ⟨⟨0, "a", "b", FV.nan⟩, FV.nan⟩ ⟨⟨1, "a", "b", FV.num 1⟩, FV.num 1⟩
      = Ordering.eq
    ∧ ((∃ out, schedule_tasks [⟨0, "a", "b", FV.nan⟩] (FV.num 100) (FV.num 1) = Except.ok out)
        ∨ (∃ e, schedule_tasks [⟨0, "a", "b", FV.nan⟩] (FV.num 100) (FV.num 1)
            = Except.error e)) :=
  ⟨taskPriority_cmp_nan_eq_and_schedule_total.1 ⟨⟨0, "a", "b", FV.nan⟩, FV.nan⟩
      ⟨⟨1, "a", "b", FV.num 1⟩, FV.num 1⟩ rfl,
    taskPriority_cmp_nan_eq_and_schedule_total.2 [⟨0, "a", "b", FV.nan⟩]
      (FV.num 100) (FV.num 1)⟩

end PPD
